import Mathlib

/-!
Verification of the `FetchClient` HTTP helper (src/index.ts, src/errors.ts).

The development shallowly embeds the two components of the library:

* the recursive serializer `transformObjectForSerialization`, modelled as a
  fuel-indexed function over an explicit object heap (object identity in
  JavaScript becomes a numeric node id; the mutable `WeakSet` of seen objects
  becomes an explicitly threaded list of ids);
* the request builders of the five verb methods (`get`, `post`, `put`,
  `patch`, `delete`) and the response handler `handleResponse`, together with
  the `FetchClientError` shape from src/errors.ts.

Platform primitives that the library delegates to (`Date.prototype.toISOString`,
`JSON.stringify`, `Response.ok`, `Headers.get`, `response.json()/text()`) are
not part of the repository's sources and are modelled abstractly, each with a
doc comment saying so.
-/

namespace FetchClient

/-- JavaScript primitive values: the cases for which
`transformObjectForSerialization` takes the `obj === null || typeof obj !== "object"`
branch and returns the value unchanged. -/
inductive JSPrim where
  | pnull
  | pundef
  | pstr (s : String)
  | pnum (n : Int)
  | pbool (b : Bool)
deriving DecidableEq, Repr

/-- A JavaScript value as seen by the serializer: a primitive, a `BigInt`,
a `Date` (carried as its timestamp), or a reference to a heap-allocated
composite.  References model JavaScript object identity. -/
inductive JSValue where
  | prim (p : JSPrim)
  | bigint (n : Int)
  | date (ms : Int)
  | ref (id : Nat)
deriving DecidableEq, Repr

/-- Heap-resident composites: the four composite shapes the serializer
distinguishes (`instanceof Map`, `instanceof Set`, `Array.isArray`, and the
remaining plain objects). -/
inductive JSNode where
  | mapNode (entries : List (JSValue × JSValue))
  | setNode (items : List JSValue)
  | arrNode (items : List JSValue)
  | objNode (fields : List (String × JSValue))
deriving DecidableEq, Repr

/-- The object heap: an association of node ids to composites. -/
abbrev Heap := List (Nat × JSNode)

/-- Dereference a node id in the heap. -/
def lookupNode (H : Heap) (id : Nat) : Option JSNode :=
  (H.find? (fun p => p.1 == id)).map (·.2)

/-- The output of the serializer: a JSON-safe tree.  It contains only
primitives, plain arrays and plain objects — `Date`s and `BigInt`s have become
strings, `Map`s and `Set`s have become tagged plain objects. -/
inductive SValue where
  | snull
  | sundef
  | str (s : String)
  | num (n : Int)
  | bool (b : Bool)
  | arr (items : List SValue)
  | obj (fields : List (String × SValue))

/-- Primitives are returned unchanged by the serializer. -/
def primToS : JSPrim → SValue
  | .pnull => .snull
  | .pundef => .sundef
  | .pstr s => .str s
  | .pnum n => .num n
  | .pbool b => .bool b

/-- Modelled from the spec: `Date.prototype.toISOString` is a platform
primitive, not part of this repository's sources; the spec only requires the
"ISO-8601 string representation" of the date value.  No claim below depends on
the exact text, only on the serializer producing this string. -/
def toISOString (ms : Int) : String :=
  "ISO-8601(" ++ toString ms ++ ")"

/-- Serialize a list of values left to right, threading the (mutable, shared)
seen-set exactly as the source's `Array.prototype.map` over
`this.transformObjectForSerialization(item, seen)` does. -/
def serList (g : JSValue → List Nat → Option (SValue × List Nat)) :
    List JSValue → List Nat → Option (List SValue × List Nat)
  | [], seen => some ([], seen)
  | x :: xs, seen =>
    match g x seen with
    | none => none
    | some r1 =>
      match serList g xs r1.2 with
      | none => none
      | some rs => some (r1.1 :: rs.1, rs.2)

/-- Serialize `Map` entries: for each `[key, value]` pair the source builds the
two-element array `[transform(key), transform(value)]`, key first. -/
def serPairs (g : JSValue → List Nat → Option (SValue × List Nat)) :
    List (JSValue × JSValue) → List Nat → Option (List SValue × List Nat)
  | [], seen => some ([], seen)
  | (k, v) :: ps, seen =>
    match g k seen with
    | none => none
    | some r1 =>
      match g v r1.2 with
      | none => none
      | some r2 =>
        match serPairs g ps r2.2 with
        | none => none
        | some rs => some (.arr [r1.1, r2.1] :: rs.1, rs.2)

/-- Serialize the fields of a plain object, as the source's
`Object.entries(obj).map(([key, value]) => [key, transform(value, seen)])`. -/
def serFields (g : JSValue → List Nat → Option (SValue × List Nat)) :
    List (String × JSValue) → List Nat → Option (List (String × SValue) × List Nat)
  | [], seen => some ([], seen)
  | (k, v) :: fs, seen =>
    match g v seen with
    | none => none
    | some r1 =>
      match serFields g fs r1.2 with
      | none => none
      | some rs => some ((k, r1.1) :: rs.1, rs.2)

/-- The serializer `transformObjectForSerialization`, embedded with explicit
fuel (the fuel only bounds recursion depth: the JavaScript original terminates
on an input exactly when some fuel suffices here).  Branches in source order:
`typeof obj === "bigint"`, `obj instanceof Date`, `obj instanceof Map`,
`obj instanceof Set`, `obj === null || typeof obj !== "object"`, then — and
only then, so only for arrays and plain objects — the `seen.has(obj)` cycle
check and `seen.add(obj)`, and finally the `Array.isArray` split.  Note that
the `Map`/`Set` branches recurse without consulting or extending `seen`,
exactly as in the source. -/
def transformF (H : Heap) : Nat → JSValue → List Nat → Option (SValue × List Nat)
  | 0, _, _ => none
  | fuel + 1, v, seen =>
    match v with
    | .bigint n => some (.str (toString n), seen)
    | .date ms => some (.str (toISOString ms), seen)
    | .prim p => some (primToS p, seen)
    | .ref id =>
      match lookupNode H id with
      | some (.mapNode entries) =>
        match serPairs (fun x s => transformF H fuel x s) entries seen with
        | none => none
        | some rs => some (.obj [("type", .str "Map"), ("value", .arr rs.1)], rs.2)
      | some (.setNode items) =>
        match serList (fun x s => transformF H fuel x s) items seen with
        | none => none
        | some rs => some (.obj [("type", .str "Set"), ("value", .arr rs.1)], rs.2)
      | some (.arrNode items) =>
        if seen.contains id then some (.str "[Circular Reference]", seen)
        else
          match serList (fun x s => transformF H fuel x s) items (id :: seen) with
          | none => none
          | some rs => some (.arr rs.1, rs.2)
      | some (.objNode fields) =>
        if seen.contains id then some (.str "[Circular Reference]", seen)
        else
          match serFields (fun x s => transformF H fuel x s) fields (id :: seen) with
          | none => none
          | some rs => some (.obj rs.1, rs.2)
      | none => none

/-! ## JSON encoding (platform primitive) -/

/-- Escape a character for a JSON string literal. -/
def jsonEscapeChar (c : Char) : String :=
  if c = '"' then "\\\"" else if c = '\\' then "\\\\" else String.singleton c

/-- A JSON string literal. -/
def jsonQuote (s : String) : String :=
  "\"" ++ String.join (s.toList.map jsonEscapeChar) ++ "\""

/-- Comma-separated concatenation. -/
def joinComma : List String → String
  | [] => ""
  | [x] => x
  | x :: xs => x ++ "," ++ joinComma xs

mutual
/-- Modelled from the spec: `JSON.stringify` is a platform primitive, not part
of this repository's sources ("JSON-encoding the result", §4.3).  On the
serializer's output type it never throws; it yields no string (JavaScript:
returns `undefined`) exactly for a top-level `undefined`; `undefined` array
elements render as `null` and `undefined`-valued object fields are dropped.
No claim below depends on the produced text, only on which string the body
field carries. -/
def jsonStringify : SValue → Option String
  | .sundef => none
  | .snull => some "null"
  | .str s => some (jsonQuote s)
  | .num n => some (toString n)
  | .bool b => some (toString b)
  | .arr items => some ("[" ++ joinComma (jsonStringifyArr items) ++ "]")
  | .obj fields => some ("\x7b" ++ joinComma (jsonStringifyObj fields) ++ "\x7d")

/-- Array elements under `JSON.stringify`. -/
def jsonStringifyArr : List SValue → List String
  | [] => []
  | x :: xs => (jsonStringify x).getD "null" :: jsonStringifyArr xs

/-- Object fields under `JSON.stringify`. -/
def jsonStringifyObj : List (String × SValue) → List String
  | [] => []
  | (k, v) :: fs =>
    match jsonStringify v with
    | none => jsonStringifyObj fs
    | some sv => (jsonQuote k ++ ":" ++ sv) :: jsonStringifyObj fs
end

/-! ## Request construction -/

/-- The platform `RequestInit` options shape, restricted to the fields this
library reads or writes (`method`, `headers`, `body`) plus two representative
passthrough fields (`credentials`, `mode`) standing for "any field of the
platform's standard request-options shape".  Header collections at this level
are plain JavaScript objects (exact, case-sensitive keys, no duplicates),
modelled as association lists. -/
structure RequestInit where
  method : Option String := none
  headers : List (String × String) := []
  body : Option String := none
  credentials : Option String := none
  mode : Option String := none
deriving DecidableEq, Repr

/-- JavaScript object-literal update `\x7b ...h, k: v \x7d` for one literal key
after a spread: if the key is present (exact, case-sensitive comparison) its
value is replaced in place, otherwise the pair is appended. -/
def setKey (h : List (String × String)) (k v : String) : List (String × String) :=
  if h.any (fun p => p.1 == k) then
    h.map (fun p => if p.1 == k then (k, v) else p)
  else h ++ [(k, v)]

/-- Object property lookup on an association list. -/
def getKey (h : List (String × String)) (k : String) : Option String :=
  (h.find? (fun p => p.1 == k)).map (·.2)

/-- The options object `get` passes to `fetch`:
`\x7b ...config, method: "GET", headers: \x7b ...config.headers \x7d \x7d`.
The spread copy `\x7b ...config.headers \x7d` of an object is the object's own
entries in order, i.e. the identity on the association-list representation. -/
def getInit (config : RequestInit) : RequestInit :=
  { config with method := some "GET", headers := config.headers }

/-- The options object `delete` passes to `fetch` (same shape as `get` with
method `"DELETE"`). -/
def deleteInit (config : RequestInit) : RequestInit :=
  { config with method := some "DELETE", headers := config.headers }

/-- The options object `post` passes to `fetch`, given the already-encoded
body: `\x7b ...config, method: "POST", headers, body \x7d` where
`headers = \x7b ...config.headers, "Content-Type": "application/json" \x7d`.
Because `...config` is spread first, the verb's `method`, `headers` and `body`
overwrite any same-named caller fields; all other caller fields pass through. -/
def postInitCore (config : RequestInit) (bodyStr : Option String) : RequestInit :=
  { config with
      method := some "POST"
      headers := setKey config.headers "Content-Type" "application/json"
      body := bodyStr }

/-- As `postInitCore`, for `put`. -/
def putInitCore (config : RequestInit) (bodyStr : Option String) : RequestInit :=
  { config with
      method := some "PUT"
      headers := setKey config.headers "Content-Type" "application/json"
      body := bodyStr }

/-- As `postInitCore`, for `patch`. -/
def patchInitCore (config : RequestInit) (bodyStr : Option String) : RequestInit :=
  { config with
      method := some "PATCH"
      headers := setKey config.headers "Content-Type" "application/json"
      body := bodyStr }

/-- `post`'s full request construction: the body is
`JSON.stringify(this.transformObjectForSerialization(data))`.  The result is
`none` exactly when the serializer diverges (no fuel suffices). -/
def postRequestF (H : Heap) (fuel : Nat) (data : JSValue) (config : RequestInit) :
    Option RequestInit :=
  (transformF H fuel data []).map fun r => postInitCore config (jsonStringify r.1)

/-- `put`'s full request construction. -/
def putRequestF (H : Heap) (fuel : Nat) (data : JSValue) (config : RequestInit) :
    Option RequestInit :=
  (transformF H fuel data []).map fun r => putInitCore config (jsonStringify r.1)

/-- `patch`'s full request construction. -/
def patchRequestF (H : Heap) (fuel : Nat) (data : JSValue) (config : RequestInit) :
    Option RequestInit :=
  (transformF H fuel data []).map fun r => patchInitCore config (jsonStringify r.1)

/-! ## Responses and the response handler -/

/-- The received response: status, response headers (a platform `Headers`
collection, case-insensitive lookup), and the raw body text. -/
structure Response where
  status : Nat
  headers : List (String × String)
  body : String
deriving DecidableEq, Repr

/-- Modelled from the spec: the platform's `Response.ok` — true exactly for a
2xx status. -/
def Response.ok (r : Response) : Bool :=
  200 ≤ r.status && r.status ≤ 299

/-- ASCII lower-casing of a character's code point, for case-insensitive
header-name comparison. -/
def charLowerNat (c : Char) : Nat :=
  if 65 ≤ c.toNat ∧ c.toNat ≤ 90 then c.toNat + 32 else c.toNat

/-- ASCII-case-insensitive string equality. -/
def eqIgnoreCase (a b : String) : Bool :=
  a.toList.map charLowerNat == b.toList.map charLowerNat

/-- Modelled from the spec: the platform `Headers.get`, case-insensitive key
lookup, `none` ↦ the source's `null`. -/
def headersGet (hs : List (String × String)) (k : String) : Option String :=
  (hs.find? (fun p => eqIgnoreCase p.1 k)).map (·.2)

/-- Substring test on character lists. -/
def charsIncl (sub : List Char) : List Char → Bool
  | [] => sub.isEmpty
  | c :: rest => sub.isPrefixOf (c :: rest) || charsIncl sub rest

/-- Modelled from the spec: `String.prototype.includes` — substring test. -/
def strIncludes (hay sub : String) : Bool :=
  charsIncl sub.toList hay.toList

/-- The decoded body.  Modelled from the spec: `response.json()` and
`response.text()` are platform primitives; the model records which of the two
decoders ran and on which raw body text (decoder internals are external to
this repository, and a decode fault propagates outside the modelled paths). -/
inductive Decoded where
  | json (raw : String)
  | text (raw : String)
deriving DecidableEq, Repr

/-- The error shape from src/errors.ts.  `request` is typed `Option Unit`
because the client never constructs a platform `Request` value (the source
always passes `request: undefined`).  The spec's "statusCode" is the source's
`code` field. -/
structure FetchClientError where
  name : String
  message : String
  config : Option RequestInit
  code : Option String
  request : Option Unit
  response : Option Response
  isAxiosError : Bool
  data : Decoded
deriving DecidableEq, Repr

/-- The `FetchClientError` class constructor: stores the message and options
and sets `name := "FetchClientError"` and `isAxiosError := true`. -/
def mkFetchClientError (message : String) (config : Option RequestInit)
    (code : Option String) (request : Option Unit) (response : Option Response)
    (data : Decoded) : FetchClientError :=
  { name := "FetchClientError", message := message, config := config,
    code := code, request := request, response := response,
    isAxiosError := true, data := data }

/-- `handleResponse`: reads `Content-Type` (empty string when absent), decodes
the body as JSON when that header contains `"application/json"` and as text
otherwise, then throws a `FetchClientError` for a non-ok status (with
`"Fetch error"`, the stringified status as `code`, the original `config`,
`request: undefined`, the response, and the decoded body as `data`) and
returns the decoded body for an ok status. -/
def handleResponse (response : Response) (config : RequestInit) :
    Except FetchClientError Decoded :=
  let contentType := (headersGet response.headers "Content-Type").getD ""
  let isJson := strIncludes contentType "application/json"
  let dataReceived := if isJson then Decoded.json response.body else Decoded.text response.body
  if !response.ok then
    Except.error (mkFetchClientError "Fetch error" (some config)
      (some (toString response.status)) none (some response) dataReceived)
  else
    Except.ok dataReceived

/-- The content-type rule of `handleResponse`, as a standalone function: JSON
decode exactly when the (case-insensitively fetched, empty when absent)
`Content-Type` response header contains `"application/json"`, text otherwise. -/
def decodeOf (r : Response) : Decoded :=
  if strIncludes ((headersGet r.headers "Content-Type").getD "") "application/json"
  then Decoded.json r.body else Decoded.text r.body

/-- `get` end to end, parameterized by the external fetch primitive (one
network round trip, modelled as a pure function from URL and options to the
received response).  The URL is the unnormalized concatenation
`` `${this.baseURL}${endpoint}` ``; the source's
`try { ... } catch (error) { throw error }` rethrows unchanged. -/
def getM (fetchPrim : String → RequestInit → Response) (baseURL endpoint : String)
    (config : RequestInit) : Except FetchClientError Decoded :=
  handleResponse (fetchPrim (baseURL ++ endpoint) (getInit config)) config

/-- `post` end to end (`none` exactly when serializing the payload diverges). -/
def postM (fetchPrim : String → RequestInit → Response) (baseURL endpoint : String)
    (H : Heap) (fuel : Nat) (data : JSValue) (config : RequestInit) :
    Option (Except FetchClientError Decoded) :=
  (postRequestF H fuel data config).map fun req =>
    handleResponse (fetchPrim (baseURL ++ endpoint) req) config

/-! ## Value-graph predicates

Used to express "acyclic input" and "every reference resolves" for the
serializer claims. -/

/-- The child values a composite recurses into (`Map` entries contribute
their keys and their values). -/
def refsOfNode : JSNode → List JSValue
  | .mapNode es => es.map Prod.fst ++ es.map Prod.snd
  | .setNode xs => xs
  | .arrNode xs => xs
  | .objNode fs => fs.map Prod.snd

/-- The node ids referenced by a list of values. -/
def refIdsOf (vs : List JSValue) : List Nat :=
  vs.filterMap fun v => match v with | .ref id => some id | _ => none

/-- The node ids a composite's children point at. -/
def nodeRefIds (nd : JSNode) : List Nat :=
  refIdsOf (refsOfNode nd)

/-- Every reference stored in the heap resolves. -/
def heapClosed (H : Heap) : Prop :=
  ∀ p ∈ H, ∀ id ∈ nodeRefIds p.2, (lookupNode H id).isSome

/-- `rank` witnesses that the value graph is acyclic: every edge strictly
decreases it. -/
def rankDec (H : Heap) (rank : Nat → Nat) : Prop :=
  ∀ p ∈ H, ∀ id ∈ nodeRefIds p.2, rank id < rank p.1

/-- The ids a single value points at (`[]` for non-references). -/
def valRefIds : JSValue → List Nat
  | .ref id => [id]
  | _ => []

/-- The measure of a pending serializer call. -/
def rkV (rank : Nat → Nat) : JSValue → Nat
  | .ref id => rank id + 1
  | _ => 0

/-! ## Re-embedding serializer output as a value graph

The serializer's output is a tree of freshly allocated plain objects, arrays
and primitives.  To serialize that output again (claim C10) it is materialized
back into a heap, every composite at a fresh id: ids are handed out by a
counter, children strictly before their parent. -/

mutual
/-- Materialize a serializer output tree from counter `n`; returns the root
value, the allocated heap entries (ids in `[n, n')`, strictly increasing,
parent last) and the next counter `n'`. -/
def embedV : SValue → Nat → JSValue × Heap × Nat
  | .snull, n => (.prim .pnull, [], n)
  | .sundef, n => (.prim .pundef, [], n)
  | .str s, n => (.prim (.pstr s), [], n)
  | .num m, n => (.prim (.pnum m), [], n)
  | .bool b, n => (.prim (.pbool b), [], n)
  | .arr items, n =>
    match embedL items n with
    | (vs, hs, n1) => (.ref n1, hs ++ [(n1, .arrNode vs)], n1 + 1)
  | .obj fields, n =>
    match embedF fields n with
    | (vs, hs, n1) => (.ref n1, hs ++ [(n1, .objNode vs)], n1 + 1)

/-- Materialize a list of output trees left to right. -/
def embedL : List SValue → Nat → List JSValue × Heap × Nat
  | [], n => ([], [], n)
  | x :: xs, n =>
    match embedV x n with
    | (v, hs1, n1) =>
      match embedL xs n1 with
      | (vs, hs2, n2) => (v :: vs, hs1 ++ hs2, n2)

/-- Materialize the fields of an output object left to right. -/
def embedF : List (String × SValue) → Nat → List (String × JSValue) × Heap × Nat
  | [], n => ([], [], n)
  | (k, x) :: fs, n =>
    match embedV x n with
    | (v, hs1, n1) =>
      match embedF fs n1 with
      | (vs, hs2, n2) => ((k, v) :: vs, hs1 ++ hs2, n2)
end

/-! ## The serializer with the runtime store explicit

`transformObjectForSerialization` again, branch for branch, but with the
object store threaded through so that (non-)mutation of the input becomes
observable: reading a composite is a store lookup, and each freshly built
result composite (the source's `obj.map(...)`, `Object.fromEntries(...)` and
the `Map`/`Set` wrapper literals) is an allocation of a new id.  The pure
model `transformF` above is this one with the allocation bookkeeping erased. -/

/-- An allocation state: the store and the next fresh id. -/
structure AllocSt where
  store : Heap
  next : Nat
deriving DecidableEq, Repr

/-- Allocate a fresh composite. -/
def allocNode (σ : AllocSt) (nd : JSNode) : JSValue × AllocSt :=
  (.ref σ.next, ⟨σ.store ++ [(σ.next, nd)], σ.next + 1⟩)

/-- Allocation-level `serList`: serialize items left to right. -/
def serListA (g : JSValue → List Nat → AllocSt → Option (JSValue × List Nat × AllocSt)) :
    List JSValue → List Nat → AllocSt → Option (List JSValue × List Nat × AllocSt)
  | [], seen, σ => some ([], seen, σ)
  | x :: xs, seen, σ =>
    match g x seen σ with
    | none => none
    | some (v, seen1, σ1) =>
      match serListA g xs seen1 σ1 with
      | none => none
      | some (vs, seen2, σ2) => some (v :: vs, seen2, σ2)

/-- Allocation-level `serPairs`: for each `Map` entry, serialize key then
value, then allocate the two-element array `[key, value]`. -/
def serPairsA (g : JSValue → List Nat → AllocSt → Option (JSValue × List Nat × AllocSt)) :
    List (JSValue × JSValue) → List Nat → AllocSt → Option (List JSValue × List Nat × AllocSt)
  | [], seen, σ => some ([], seen, σ)
  | (k, v) :: ps, seen, σ =>
    match g k seen σ with
    | none => none
    | some (rk, seen1, σ1) =>
      match g v seen1 σ1 with
      | none => none
      | some (rv, seen2, σ2) =>
        match allocNode σ2 (.arrNode [rk, rv]) with
        | (pairRef, σ3) =>
          match serPairsA g ps seen2 σ3 with
          | none => none
          | some (vs, seen4, σ4) => some (pairRef :: vs, seen4, σ4)

/-- Allocation-level `serFields`: serialize each field value. -/
def serFieldsA (g : JSValue → List Nat → AllocSt → Option (JSValue × List Nat × AllocSt)) :
    List (String × JSValue) → List Nat → AllocSt →
      Option (List (String × JSValue) × List Nat × AllocSt)
  | [], seen, σ => some ([], seen, σ)
  | (k, v) :: fs, seen, σ =>
    match g v seen σ with
    | none => none
    | some (rv, seen1, σ1) =>
      match serFieldsA g fs seen1 σ1 with
      | none => none
      | some (vs, seen2, σ2) => some ((k, rv) :: vs, seen2, σ2)

/-- The serializer with explicit allocation.  Same branch structure and
`seen` discipline as `transformF`; results that are JavaScript objects
(the `Map`/`Set` wrapper object and its `value` array, each entry's pair
array, the mapped array, the rebuilt plain object) are allocated fresh. -/
def transformAllocF : Nat → JSValue → List Nat → AllocSt →
    Option (JSValue × List Nat × AllocSt)
  | 0, _, _, _ => none
  | fuel + 1, v, seen, σ =>
    match v with
    | .bigint n => some (.prim (.pstr (toString n)), seen, σ)
    | .date ms => some (.prim (.pstr (toISOString ms)), seen, σ)
    | .prim p => some (.prim p, seen, σ)
    | .ref id =>
      match lookupNode σ.store id with
      | some (.mapNode entries) =>
        match serPairsA (fun x s τ => transformAllocF fuel x s τ) entries seen σ with
        | none => none
        | some (pairRefs, seen1, σ1) =>
          match allocNode σ1 (.arrNode pairRefs) with
          | (va, σ2) =>
            match allocNode σ2 (.objNode [("type", .prim (.pstr "Map")), ("value", va)]) with
            | (vo, σ3) => some (vo, seen1, σ3)
      | some (.setNode items) =>
        match serListA (fun x s τ => transformAllocF fuel x s τ) items seen σ with
        | none => none
        | some (itemRefs, seen1, σ1) =>
          match allocNode σ1 (.arrNode itemRefs) with
          | (va, σ2) =>
            match allocNode σ2 (.objNode [("type", .prim (.pstr "Set")), ("value", va)]) with
            | (vo, σ3) => some (vo, seen1, σ3)
      | some (.arrNode items) =>
        if seen.contains id then some (.prim (.pstr "[Circular Reference]"), seen, σ)
        else
          match serListA (fun x s τ => transformAllocF fuel x s τ) items (id :: seen) σ with
          | none => none
          | some (itemRefs, seen1, σ1) =>
            match allocNode σ1 (.arrNode itemRefs) with
            | (va, σ2) => some (va, seen1, σ2)
      | some (.objNode fields) =>
        if seen.contains id then some (.prim (.pstr "[Circular Reference]"), seen, σ)
        else
          match serFieldsA (fun x s τ => transformAllocF fuel x s τ) fields (id :: seen) σ with
          | none => none
          | some (fieldRefs, seen1, σ1) =>
            match allocNode σ1 (.objNode fieldRefs) with
            | (vo, σ2) => some (vo, seen1, σ2)
      | none => none

/-- `σ'` extends `σ`: the old store is an unchanged prefix, the counter did
not decrease, and everything added carries an id at least `σ.next`. -/
def Extends (σ σ' : AllocSt) : Prop :=
  σ.next ≤ σ'.next ∧ ∃ ext, σ'.store = σ.store ++ ext ∧ ∀ p ∈ ext, σ.next ≤ p.1

/-! ## The spec's header builder (not present in the source)

Claim C5 ascribes credential forwarding to the verb methods; the source's verb
methods take only `endpoint`, an optional payload and `config`, and build
their headers from `config.headers` alone.  To compare, the behaviour the
spec describes is modelled here separately. -/

/-- An inbound server-side request, restricted to the two headers the spec's
§4.2 header builder forwards. -/
structure InboundRequest where
  cookie : Option String
  authorization : Option String
deriving DecidableEq, Repr

/-- Modelled from the spec: the header builder of §4.2 — "If an inbound
request is supplied, copies its `cookie` and `authorization` header values
into the result, overwriting any same-named header already present."  This is
what the SPEC says the verb methods do; no corresponding parameter or logic
exists in src/index.ts, which the C5 counterexample exhibits. -/
def specForwardHeaders (base : List (String × String)) (req : Option InboundRequest) :
    List (String × String) :=
  match req with
  | none => base
  | some q =>
    let withCookie :=
      match q.cookie with
      | none => base
      | some c => setKey base "cookie" c
    match q.authorization with
    | none => withCookie
    | some a => setKey withCookie "authorization" a

/-! # Theorems

## Fuel monotonicity of the serializer

The fuel only bounds recursion depth, so a result obtained with some fuel is
stable under giving more. -/

/-- One-step unfolding of `transformF` on a reference, for controlled
rewriting (the body is the `ref` arm of the definition verbatim). -/
theorem transformF_ref_unfold (H : Heap) (f : Nat) (id : Nat) (seen : List Nat) :
    transformF H (f + 1) (.ref id) seen =
      match lookupNode H id with
      | some (.mapNode entries) =>
        match serPairs (fun x s => transformF H f x s) entries seen with
        | none => none
        | some rs => some (.obj [("type", .str "Map"), ("value", .arr rs.1)], rs.2)
      | some (.setNode items) =>
        match serList (fun x s => transformF H f x s) items seen with
        | none => none
        | some rs => some (.obj [("type", .str "Set"), ("value", .arr rs.1)], rs.2)
      | some (.arrNode items) =>
        if seen.contains id then some (.str "[Circular Reference]", seen)
        else
          match serList (fun x s => transformF H f x s) items (id :: seen) with
          | none => none
          | some rs => some (.arr rs.1, rs.2)
      | some (.objNode fields) =>
        if seen.contains id then some (.str "[Circular Reference]", seen)
        else
          match serFields (fun x s => transformF H f x s) fields (id :: seen) with
          | none => none
          | some rs => some (.obj rs.1, rs.2)
      | none => none := rfl

theorem serList_mono {g₁ g₂ : JSValue → List Nat → Option (SValue × List Nat)}
    (hg : ∀ x s r, g₁ x s = some r → g₂ x s = some r) :
    ∀ xs s r, serList g₁ xs s = some r → serList g₂ xs s = some r := by
  intro xs
  induction xs with
  | nil => exact fun s r h => h
  | cons x xs ih =>
    intro s r h
    simp only [serList] at h ⊢
    cases h1 : g₁ x s with
    | none => simp [h1] at h
    | some r1 =>
      simp only [h1] at h
      simp only [hg x s r1 h1]
      cases h2 : serList g₁ xs r1.2 with
      | none => simp [h2] at h
      | some rs =>
        simp only [h2] at h
        simp only [ih r1.2 rs h2]
        exact h

theorem serPairs_mono {g₁ g₂ : JSValue → List Nat → Option (SValue × List Nat)}
    (hg : ∀ x s r, g₁ x s = some r → g₂ x s = some r) :
    ∀ ps s r, serPairs g₁ ps s = some r → serPairs g₂ ps s = some r := by
  intro ps
  induction ps with
  | nil => exact fun s r h => h
  | cons p ps ih =>
    intro s r h
    obtain ⟨k, v⟩ := p
    simp only [serPairs] at h ⊢
    cases h1 : g₁ k s with
    | none => simp [h1] at h
    | some r1 =>
      simp only [h1] at h
      simp only [hg k s r1 h1]
      cases h2 : g₁ v r1.2 with
      | none => simp [h2] at h
      | some r2 =>
        simp only [h2] at h
        simp only [hg v r1.2 r2 h2]
        cases h3 : serPairs g₁ ps r2.2 with
        | none => simp [h3] at h
        | some rs =>
          simp only [h3] at h
          simp only [ih r2.2 rs h3]
          exact h

theorem serFields_mono {g₁ g₂ : JSValue → List Nat → Option (SValue × List Nat)}
    (hg : ∀ x s r, g₁ x s = some r → g₂ x s = some r) :
    ∀ fs s r, serFields g₁ fs s = some r → serFields g₂ fs s = some r := by
  intro fs
  induction fs with
  | nil => exact fun s r h => h
  | cons p fs ih =>
    intro s r h
    obtain ⟨k, v⟩ := p
    simp only [serFields] at h ⊢
    cases h1 : g₁ v s with
    | none => simp [h1] at h
    | some r1 =>
      simp only [h1] at h
      simp only [hg v s r1 h1]
      cases h2 : serFields g₁ fs r1.2 with
      | none => simp [h2] at h
      | some rs =>
        simp only [h2] at h
        simp only [ih r1.2 rs h2]
        exact h

theorem transformF_mono_succ (H : Heap) :
    ∀ fuel v seen r, transformF H fuel v seen = some r →
      transformF H (fuel + 1) v seen = some r := by
  intro fuel
  induction fuel with
  | zero => intro v seen r h; simp [transformF] at h
  | succ f ih =>
    intro v seen r h
    cases v with
    | prim p => exact h
    | bigint n => exact h
    | date ms => exact h
    | ref id =>
      rw [transformF_ref_unfold] at h ⊢
      cases hn : lookupNode H id with
      | none => simp [hn] at h
      | some node =>
        cases node with
        | mapNode entries =>
          simp only [hn] at h ⊢
          cases h2 : serPairs (fun x s => transformF H f x s) entries seen with
          | none => simp [h2] at h
          | some rs =>
            simp only [h2] at h
            simp only [serPairs_mono (fun x s r hx => ih x s r hx) entries seen rs h2]
            exact h
        | setNode items =>
          simp only [hn] at h ⊢
          cases h2 : serList (fun x s => transformF H f x s) items seen with
          | none => simp [h2] at h
          | some rs =>
            simp only [h2] at h
            simp only [serList_mono (fun x s r hx => ih x s r hx) items seen rs h2]
            exact h
        | arrNode items =>
          simp only [hn] at h ⊢
          cases hc : seen.contains id with
          | true => simp only [hc, if_true] at h ⊢; exact h
          | false =>
            simp only [hc, if_false] at h ⊢
            cases h2 : serList (fun x s => transformF H f x s) items (id :: seen) with
            | none => simp [h2] at h
            | some rs =>
              simp only [h2] at h
              simp only [serList_mono (fun x s r hx => ih x s r hx) items (id :: seen) rs h2]
              exact h
        | objNode fields =>
          simp only [hn] at h ⊢
          cases hc : seen.contains id with
          | true => simp only [hc, if_true] at h ⊢; exact h
          | false =>
            simp only [hc, if_false] at h ⊢
            cases h2 : serFields (fun x s => transformF H f x s) fields (id :: seen) with
            | none => simp [h2] at h
            | some rs =>
              simp only [h2] at h
              simp only [serFields_mono (fun x s r hx => ih x s r hx) fields (id :: seen) rs h2]
              exact h

theorem transformF_mono (H : Heap) {f f' : Nat} (hle : f ≤ f') :
    ∀ v seen r, transformF H f v seen = some r → transformF H f' v seen = some r := by
  induction hle with
  | refl => exact fun v s r h => h
  | step _ ih =>
    intro v s r h
    exact transformF_mono_succ H _ v s r (ih v s r h)

/-! ## Termination of the serializer on acyclic value graphs -/

theorem lookupNode_mem {H : Heap} {id : Nat} {nd : JSNode}
    (h : lookupNode H id = some nd) : (id, nd) ∈ H := by
  unfold lookupNode at h
  cases hf : H.find? (fun p => p.1 == id) with
  | none => rw [hf] at h; cases h
  | some q =>
    rw [hf] at h
    simp only [Option.map_some'] at h
    have hq := List.mem_of_find?_eq_some hf
    have hp := List.find?_some hf
    have h1 : q.1 = id := by simpa using hp
    have h2 : q.2 = nd := by simpa using h
    rw [← h1, ← h2]
    simpa using hq

theorem serList_term (H : Heap) (xs : List JSValue)
    (hx : ∀ x ∈ xs, ∀ s, ∃ f r, transformF H f x s = some r) :
    ∀ s, ∃ f rs, serList (fun a b => transformF H f a b) xs s = some rs := by
  induction xs with
  | nil => intro s; exact ⟨0, ([], s), rfl⟩
  | cons x xs ih =>
    intro s
    obtain ⟨f1, r1, h1⟩ := hx x (List.mem_cons_self x xs) s
    obtain ⟨f2, rs2, h2⟩ := ih (fun y hy s' => hx y (List.mem_cons_of_mem x hy) s') r1.2
    refine ⟨max f1 f2, (r1.1 :: rs2.1, rs2.2), ?_⟩
    have h1' : transformF H (max f1 f2) x s = some r1 :=
      transformF_mono H (le_max_left f1 f2) x s r1 h1
    have h2' : serList (fun a b => transformF H (max f1 f2) a b) xs r1.2 = some rs2 :=
      serList_mono (fun a b r hab => transformF_mono H (le_max_right f1 f2) a b r hab)
        xs r1.2 rs2 h2
    simp only [serList, h1', h2']

theorem serPairs_term (H : Heap) (ps : List (JSValue × JSValue))
    (hx : ∀ p ∈ ps, (∀ s, ∃ f r, transformF H f p.1 s = some r) ∧
      (∀ s, ∃ f r, transformF H f p.2 s = some r)) :
    ∀ s, ∃ f rs, serPairs (fun a b => transformF H f a b) ps s = some rs := by
  induction ps with
  | nil => intro s; exact ⟨0, ([], s), rfl⟩
  | cons p ps ih =>
    intro s
    obtain ⟨k, v⟩ := p
    obtain ⟨f1, r1, h1⟩ := (hx (k, v) (List.mem_cons_self _ _)).1 s
    obtain ⟨f2, r2, h2⟩ := (hx (k, v) (List.mem_cons_self _ _)).2 r1.2
    obtain ⟨f3, rs3, h3⟩ := ih (fun q hq => hx q (List.mem_cons_of_mem _ hq)) r2.2
    refine ⟨max f1 (max f2 f3), (.arr [r1.1, r2.1] :: rs3.1, rs3.2), ?_⟩
    have h1' : transformF H (max f1 (max f2 f3)) k s = some r1 :=
      transformF_mono H (le_max_left _ _) k s r1 h1
    have h2' : transformF H (max f1 (max f2 f3)) v r1.2 = some r2 :=
      transformF_mono H (le_trans (le_max_left f2 f3) (le_max_right f1 _)) v r1.2 r2 h2
    have h3' : serPairs (fun a b => transformF H (max f1 (max f2 f3)) a b) ps r2.2 = some rs3 :=
      serPairs_mono (fun a b r hab =>
        transformF_mono H (le_trans (le_max_right f2 f3) (le_max_right f1 _)) a b r hab)
        ps r2.2 rs3 h3
    simp only [serPairs, h1', h2', h3']

theorem serFields_term (H : Heap) (fs : List (String × JSValue))
    (hx : ∀ p ∈ fs, ∀ s, ∃ f r, transformF H f p.2 s = some r) :
    ∀ s, ∃ f rs, serFields (fun a b => transformF H f a b) fs s = some rs := by
  induction fs with
  | nil => intro s; exact ⟨0, ([], s), rfl⟩
  | cons p fs ih =>
    intro s
    obtain ⟨k, v⟩ := p
    obtain ⟨f1, r1, h1⟩ := hx (k, v) (List.mem_cons_self _ _) s
    obtain ⟨f2, rs2, h2⟩ := ih (fun q hq => hx q (List.mem_cons_of_mem _ hq)) r1.2
    refine ⟨max f1 f2, ((k, r1.1) :: rs2.1, rs2.2), ?_⟩
    have h1' : transformF H (max f1 f2) v s = some r1 :=
      transformF_mono H (le_max_left f1 f2) v s r1 h1
    have h2' : serFields (fun a b => transformF H (max f1 f2) a b) fs r1.2 = some rs2 :=
      serFields_mono (fun a b r hab => transformF_mono H (le_max_right f1 f2) a b r hab)
        fs r1.2 rs2 h2
    simp only [serFields, h1', h2']

/-- On a value graph with a rank function that strictly decreases along every
edge (an acyclicity certificate) and with all references resolving, the
serializer terminates from any starting seen-set. -/
theorem transformF_term_of_rank (H : Heap) (rank : Nat → Nat)
    (hclosed : heapClosed H) (hrank : rankDec H rank) :
    ∀ n v, rkV rank v ≤ n → (∀ id ∈ valRefIds v, (lookupNode H id).isSome) →
      ∀ seen, ∃ f r, transformF H f v seen = some r := by
  intro n
  induction n using Nat.strong_induction_on with
  | _ n ih =>
    intro v hrk hroot seen
    cases v with
    | prim p => exact ⟨1, (primToS p, seen), rfl⟩
    | bigint m => exact ⟨1, (.str (toString m), seen), rfl⟩
    | date ms => exact ⟨1, (.str (toISOString ms), seen), rfl⟩
    | ref id =>
      have hS : (lookupNode H id).isSome := hroot id (by simp [valRefIds])
      obtain ⟨nd, hnd⟩ := Option.isSome_iff_exists.mp hS
      have hmem : (id, nd) ∈ H := lookupNode_mem hnd
      have hrkid : rank id + 1 ≤ n := by simpa [rkV] using hrk
      have hchild : ∀ c ∈ refsOfNode nd, ∀ s, ∃ f r, transformF H f c s = some r := by
        intro c hc s
        have hcrk : rkV rank c ≤ rank id := by
          cases c with
          | ref id' =>
            have hin : id' ∈ nodeRefIds nd :=
              List.mem_filterMap.mpr ⟨.ref id', hc, rfl⟩
            have := hrank (id, nd) hmem id' hin
            simpa [rkV] using this
          | prim p => simp [rkV]
          | bigint m => simp [rkV]
          | date ms => simp [rkV]
        have hcroot : ∀ id' ∈ valRefIds c, (lookupNode H id').isSome := by
          intro id' hid'
          cases c with
          | ref id2 =>
            simp only [valRefIds, List.mem_singleton] at hid'
            subst hid'
            exact hclosed (id, nd) hmem id' (List.mem_filterMap.mpr ⟨.ref id', hc, rfl⟩)
          | prim p => simp [valRefIds] at hid'
          | bigint m => simp [valRefIds] at hid'
          | date ms => simp [valRefIds] at hid'
        exact ih (rank id) (by omega) c hcrk hcroot s
      cases nd with
      | mapNode entries =>
        have hps : ∀ p ∈ entries, (∀ s, ∃ f r, transformF H f p.1 s = some r) ∧
            (∀ s, ∃ f r, transformF H f p.2 s = some r) := by
          intro p hp
          constructor
          · exact hchild p.1 (by
              simp only [refsOfNode, List.mem_append]
              exact Or.inl (List.mem_map.mpr ⟨p, hp, rfl⟩))
          · exact hchild p.2 (by
              simp only [refsOfNode, List.mem_append]
              exact Or.inr (List.mem_map.mpr ⟨p, hp, rfl⟩))
        obtain ⟨f, rs, hs⟩ := serPairs_term H entries hps seen
        refine ⟨f + 1, (.obj [("type", .str "Map"), ("value", .arr rs.1)], rs.2), ?_⟩
        rw [transformF_ref_unfold, hnd]
        simp only [hs]
      | setNode items =>
        have hits : ∀ x ∈ items, ∀ s, ∃ f r, transformF H f x s = some r := by
          intro x hxm
          exact hchild x (by simpa [refsOfNode] using hxm)
        obtain ⟨f, rs, hs⟩ := serList_term H items hits seen
        refine ⟨f + 1, (.obj [("type", .str "Set"), ("value", .arr rs.1)], rs.2), ?_⟩
        rw [transformF_ref_unfold, hnd]
        simp only [hs]
      | arrNode items =>
        cases hc : seen.contains id with
        | true =>
          refine ⟨1, (.str "[Circular Reference]", seen), ?_⟩
          show transformF H (0 + 1) _ _ = _
          rw [transformF_ref_unfold, hnd, hc]
          simp
        | false =>
          have hits : ∀ x ∈ items, ∀ s, ∃ f r, transformF H f x s = some r := by
            intro x hxm
            exact hchild x (by simpa [refsOfNode] using hxm)
          obtain ⟨f, rs, hs⟩ := serList_term H items hits (id :: seen)
          refine ⟨f + 1, (.arr rs.1, rs.2), ?_⟩
          rw [transformF_ref_unfold, hnd, hc]
          simp [hs]
      | objNode fields =>
        cases hc : seen.contains id with
        | true =>
          refine ⟨1, (.str "[Circular Reference]", seen), ?_⟩
          show transformF H (0 + 1) _ _ = _
          rw [transformF_ref_unfold, hnd, hc]
          simp
        | false =>
          have hfs : ∀ p ∈ fields, ∀ s, ∃ f r, transformF H f p.2 s = some r := by
            intro p hp
            exact hchild p.2 (by
              simp only [refsOfNode]
              exact List.mem_map.mpr ⟨p, hp, rfl⟩)
          obtain ⟨f, rs, hs⟩ := serFields_term H fields hfs (id :: seen)
          refine ⟨f + 1, (.obj rs.1, rs.2), ?_⟩
          rw [transformF_ref_unfold, hnd, hc]
          simp [hs]

/-! ## Claim C1 -/

/-- C1: the claim fails on the code.  A `Set` that contains itself — a value
"composed of … sets …, including self-referential ones" — makes
`transformObjectForSerialization` recurse forever: the `instanceof Set` branch
runs before the `seen.has(obj)` check and never adds the set to `seen`
(likewise `instanceof Map`), so the recursion meets the same set again in an
identical state.  In the fuel model: no recursion depth whatsoever (and no
starting seen-set) yields a result, which is the shallow rendering of an
unbounded recursion / stack overflow. -/
theorem c1_self_referential_set_diverges :
    ∀ fuel seen, transformF [(0, .setNode [.ref 0])] fuel (.ref 0) seen = none := by
  intro fuel
  induction fuel with
  | zero => intro seen; rfl
  | succ f ih =>
    intro seen
    have hl : lookupNode [(0, JSNode.setNode [.ref 0])] 0 = some (.setNode [.ref 0]) := rfl
    rw [transformF_ref_unfold, hl]
    simp only [serList, ih]

/-! ## Claim C2 -/

/-- C2 counterexample: in the two-node heap "array `[o, o]` with `o = {}`" the
same object appears twice in sibling positions and nowhere inside itself — no
ancestor-descendant cycle exists — yet the serializer replaces the second
occurrence with the `"[Circular Reference]"` marker, because the first visit
added `o` to the seen-set and nothing ever removes it.  This refutes the
claim that only an actual ancestor-descendant cycle triggers the marker. -/
theorem c2_sibling_sharing_flagged_counterexample :
    transformF [(0, .arrNode [.ref 1, .ref 1]), (1, .objNode [])] 3 (.ref 0) [] =
      some (.arr [.obj [], .str "[Circular Reference]"], [1, 0]) := rfl

/-- C2 amended: a value appearing twice in sibling positions IS flagged: for
every heap in which node `i` is the array `[ref j, ref j]` and node `j` is a
plain object with no fields, serialization succeeds (any depth ≥ 3) and
returns the serialized object followed by the `"[Circular Reference]"`
marker in place of the second sibling occurrence — the seen-set grows on
first visit and is never pruned, so the marker is not limited to
ancestor-descendant cycles. -/
theorem c2_sibling_sharing_flagged (H : Heap) (i j : Nat) (f : Nat)
    (hi : lookupNode H i = some (.arrNode [.ref j, .ref j]))
    (hj : lookupNode H j = some (.objNode []))
    (hf : 3 ≤ f) :
    transformF H f (.ref i) [] =
      some (.arr [.obj [], .str "[Circular Reference]"], [j, i]) := by
  have hij : j ≠ i := by
    intro e
    rw [e, hi] at hj
    cases hj
  apply transformF_mono H hf
  show transformF H (1 + 1 + 1) (.ref i) [] = _
  rw [transformF_ref_unfold, hi]
  have h1 : transformF H (1 + 1) (.ref j) [i] =
      some (.obj [], [j, i]) := by
    rw [transformF_ref_unfold, hj]
    have : ([i].contains j) = false := by simp [hij]
    rw [this]
    simp [serFields]
  have h2 : transformF H (1 + 1) (.ref j) [j, i] =
      some (.str "[Circular Reference]", [j, i]) := by
    rw [transformF_ref_unfold, hj]
    simp
  simp [serList, h1, h2]

/-- Witness for the amended C2 theorem at a concrete heap. -/
theorem c2_sibling_sharing_flagged_witness :
    transformF [(0, .arrNode [.ref 1, .ref 1]), (1, .objNode [])] 4 (.ref 0) [] =
      some (.arr [.obj [], .str "[Circular Reference]"], [1, 0]) :=
  c2_sibling_sharing_flagged [(0, .arrNode [.ref 1, .ref 1]), (1, .objNode [])]
    0 1 4 rfl rfl (by decide)

/-! ## Claim C7 -/

/-- C7: for every heap position holding a plain object `o` whose `"self"`
field is `o` itself (`o.self = o`), serialization terminates — any recursion
depth ≥ 2 suffices — and the result is the object whose `"self"` field is the
literal string `"[Circular Reference]"` (the object was added to the seen-set
before its fields were visited, so the inner occurrence is caught). -/
theorem c7_self_field_circular_marker (H : Heap) (id : Nat) (f : Nat)
    (hobj : lookupNode H id = some (.objNode [("self", .ref id)]))
    (hf : 2 ≤ f) :
    transformF H f (.ref id) [] =
      some (.obj [("self", .str "[Circular Reference]")], [id]) := by
  apply transformF_mono H hf
  show transformF H (1 + 1) (.ref id) [] = _
  rw [transformF_ref_unfold, hobj]
  have h1 : transformF H 1 (.ref id) [id] =
      some (.str "[Circular Reference]", [id]) := by
    show transformF H (0 + 1) (.ref id) [id] = _
    rw [transformF_ref_unfold, hobj]
    simp
  simp [serFields, h1]

/-- Witness for C7 at a concrete one-node heap. -/
theorem c7_self_field_circular_marker_witness :
    transformF [(0, .objNode [("self", .ref 0)])] 2 (.ref 0) [] =
      some (.obj [("self", .str "[Circular Reference]")], [0]) :=
  c7_self_field_circular_marker [(0, .objNode [("self", .ref 0)])] 0 2 rfl (by decide)

/-! ## Header-object lemmas -/

theorem getKey_map_replace (k v : String) :
    ∀ h : List (String × String), h.any (fun p => p.1 == k) = true →
      getKey (h.map (fun p => if p.1 == k then (k, v) else p)) k = some v := by
  intro h
  induction h with
  | nil => intro ha; simp at ha
  | cons p t ih =>
    intro ha
    by_cases hp : (p.1 == k) = true
    · simp only [List.map_cons, if_pos hp, getKey]
      simp [List.find?]
    · simp only [List.map_cons, if_neg hp]
      simp only [getKey] at ih ⊢
      rw [List.find?_cons_of_neg]
      · apply ih
        simp only [List.any_cons, Bool.or_eq_true] at ha
        rcases ha with ha | ha
        · exact absurd ha hp
        · exact ha
      · simpa using hp

theorem getKey_append_new (k v : String) (h : List (String × String))
    (ha : h.any (fun p => p.1 == k) = false) :
    getKey (h ++ [(k, v)]) k = some v := by
  unfold getKey
  rw [List.find?_append]
  have hnone : h.find? (fun p => p.1 == k) = none := by
    rw [List.find?_eq_none]
    intro x hx
    intro hxk
    have : h.any (fun p => p.1 == k) = true := List.any_eq_true.mpr ⟨x, hx, hxk⟩
    rw [this] at ha
    cases ha
  rw [hnone]
  simp [BEq.refl]

/-- Setting a key then reading it back gives the set value: the JavaScript
object update `\x7b ...h, k: v \x7d` always leaves `v` under `k`. -/
theorem getKey_setKey (h : List (String × String)) (k v : String) :
    getKey (setKey h k v) k = some v := by
  unfold setKey
  cases ha : h.any (fun p => p.1 == k) with
  | true => rw [if_pos rfl]; exact getKey_map_replace k v h ha
  | false => rw [if_neg (by simp [ha])]; exact getKey_append_new k v h ha

/-! ## Claim C3 -/

/-- C3 counterexample: a caller configuration carrying `method: "DELETE"` and
a `body` does NOT override the verb's own method and body — `post` spreads
`...config` FIRST and writes `method: "POST"`, `headers` and `body` after it,
so the built-in fields win, contrary to the claim that caller configuration
is merged last. -/
theorem c3_caller_override_counterexample :
    (postRequestF [] 1 (.prim .pnull)
        { method := some "DELETE", body := some "caller-body",
          credentials := some "include" }).map (fun q => (q.method, q.body)) =
      some (some "POST", some "null") := rfl

/-- C3 amended: the caller configuration is spread FIRST; the verb then writes
its own `method`, `headers` and `body` (for `get`, `method` and `headers`), so
these built-ins overwrite any same-named caller fields, while every other
caller field — and for `get` even a caller-supplied `body` — passes through
verbatim. -/
theorem c3_spread_first_builtins_win (H : Heap) (fuel : Nat) (data : JSValue)
    (config : RequestInit) (b : Option String) (r : SValue × List Nat)
    (h : transformF H fuel data [] = some r) :
    postRequestF H fuel data config = some (postInitCore config (jsonStringify r.1)) ∧
    (postInitCore config b).method = some "POST" ∧
    (postInitCore config b).body = b ∧
    (postInitCore config b).credentials = config.credentials ∧
    (postInitCore config b).mode = config.mode ∧
    (getInit config).method = some "GET" ∧
    (getInit config).body = config.body ∧
    (getInit config).credentials = config.credentials := by
  refine ⟨?_, rfl, rfl, rfl, rfl, rfl, rfl, rfl⟩
  simp [postRequestF, h]

/-- Witness for the amended C3 theorem at concrete inputs. -/
theorem c3_spread_first_builtins_win_witness :
    postRequestF [] 1 (.prim .pnull) {} =
      some (postInitCore {} (jsonStringify SValue.snull)) ∧
    (postInitCore {} none).method = some "POST" ∧
    (postInitCore {} none).body = none ∧
    (postInitCore {} none).credentials = ({} : RequestInit).credentials ∧
    (postInitCore {} none).mode = ({} : RequestInit).mode ∧
    (getInit {}).method = some "GET" ∧
    (getInit {}).body = ({} : RequestInit).body ∧
    (getInit {}).credentials = ({} : RequestInit).credentials :=
  c3_spread_first_builtins_win [] 1 (.prim .pnull) {} none (SValue.snull, []) rfl

/-! ## Claim C4 -/

/-- C4 counterexample: `post` performs no multipart detection and does not
respect an already-present `Content-Type`: with a caller configuration whose
headers already carry `Content-Type: multipart/form-data`, the dispatched
request's headers carry `Content-Type: application/json` — overwritten
unconditionally, contrary to "sets it to application/json only if no
Content-Type header is already present". -/
theorem c4_content_type_forced_counterexample :
    (postRequestF [] 1 (.prim .pnull)
        { headers := [("Content-Type", "multipart/form-data")] }).map
      (fun q => q.headers) = some [("Content-Type", "application/json")] := rfl

/-- C4 amended: `post`/`put`/`patch` perform no multipart detection — every
payload is passed through the serializer and `JSON.stringify` — and always
set `Content-Type` to `application/json`, overwriting any caller-supplied
`Content-Type`. -/
theorem c4_no_multipart_always_json (H : Heap) (fuel : Nat) (data : JSValue)
    (config : RequestInit) (r : SValue × List Nat)
    (h : transformF H fuel data [] = some r) :
    (postRequestF H fuel data config).map (fun q => q.headers) =
      some (setKey config.headers "Content-Type" "application/json") ∧
    (postRequestF H fuel data config).map (fun q => getKey q.headers "Content-Type") =
      some (some "application/json") ∧
    (postRequestF H fuel data config).map (fun q => q.body) =
      some (jsonStringify r.1) ∧
    (putRequestF H fuel data config).map (fun q => q.headers) =
      some (setKey config.headers "Content-Type" "application/json") ∧
    (patchRequestF H fuel data config).map (fun q => q.headers) =
      some (setKey config.headers "Content-Type" "application/json") := by
  refine ⟨?_, ?_, ?_, ?_, ?_⟩ <;>
    simp [postRequestF, putRequestF, patchRequestF, h, postInitCore, putInitCore,
      patchInitCore, getKey_setKey]

/-- Witness for the amended C4 theorem at concrete inputs. -/
theorem c4_no_multipart_always_json_witness :
    (postRequestF [] 1 (.prim .pnull)
        { headers := [("Content-Type", "multipart/form-data")] }).map (fun q => q.headers) =
      some (setKey [("Content-Type", "multipart/form-data")] "Content-Type" "application/json") ∧
    (postRequestF [] 1 (.prim .pnull)
        { headers := [("Content-Type", "multipart/form-data")] }).map
        (fun q => getKey q.headers "Content-Type") = some (some "application/json") ∧
    (postRequestF [] 1 (.prim .pnull)
        { headers := [("Content-Type", "multipart/form-data")] }).map (fun q => q.body) =
      some (jsonStringify SValue.snull) ∧
    (putRequestF [] 1 (.prim .pnull)
        { headers := [("Content-Type", "multipart/form-data")] }).map (fun q => q.headers) =
      some (setKey [("Content-Type", "multipart/form-data")] "Content-Type" "application/json") ∧
    (patchRequestF [] 1 (.prim .pnull)
        { headers := [("Content-Type", "multipart/form-data")] }).map (fun q => q.headers) =
      some (setKey [("Content-Type", "multipart/form-data")] "Content-Type" "application/json") :=
  c4_no_multipart_always_json [] 1 (.prim .pnull)
    { headers := [("Content-Type", "multipart/form-data")] } (SValue.snull, []) rfl

/-! ## Claim C5 -/

/-- C5 counterexample: the verb methods forward no credentials.  `get`'s
outgoing headers are exactly the caller configuration's headers; under the
claimed behaviour an inbound request carrying `authorization: inbound-token`
would have overwritten the caller's `authorization` header, but the code has
no inbound-request parameter at all, so the dispatched headers differ from the
spec-modelled forwarding result. -/
theorem c5_no_credential_forwarding_counterexample :
    (getInit { headers := [("authorization", "caller-token")] }).headers =
      [("authorization", "caller-token")] ∧
    specForwardHeaders [("authorization", "caller-token")]
        (some { cookie := none, authorization := some "inbound-token" }) =
      [("authorization", "inbound-token")] ∧
    (getInit { headers := [("authorization", "caller-token")] }).headers ≠
      specForwardHeaders [("authorization", "caller-token")]
        (some { cookie := none, authorization := some "inbound-token" }) := by
  refine ⟨rfl, rfl, ?_⟩
  decide

/-- C5 amended: the five verb methods accept no inbound request and perform
no `cookie`/`authorization` forwarding; the outgoing headers are exactly the
caller configuration's headers, with `Content-Type: application/json`
additionally forced for the write verbs. -/
theorem c5_headers_from_config_only (config : RequestInit) (b : Option String) :
    (getInit config).headers = config.headers ∧
    (deleteInit config).headers = config.headers ∧
    (postInitCore config b).headers = setKey config.headers "Content-Type" "application/json" ∧
    (putInitCore config b).headers = setKey config.headers "Content-Type" "application/json" ∧
    (patchInitCore config b).headers = setKey config.headers "Content-Type" "application/json" :=
  ⟨rfl, rfl, rfl, rfl, rfl⟩

/-! ## Claim C6 -/

/-- C6: for every non-2xx response `handleResponse` raises the
`FetchClientError` with message `"Fetch error"`, the failing status rendered
as a string in `code`, the original configuration, the response object, the
decoded body as `data`, the constructor-set `name` and `isAxiosError` flag,
and an absent `request`; for every 2xx response it returns the decoded
payload. -/
theorem c6_structured_error_shape (r : Response) (config : RequestInit) :
    (¬ (200 ≤ r.status ∧ r.status ≤ 299) →
      handleResponse r config = Except.error
        { name := "FetchClientError", message := "Fetch error",
          config := some config, code := some (toString r.status),
          request := none, response := some r, isAxiosError := true,
          data := decodeOf r }) ∧
    ((200 ≤ r.status ∧ r.status ≤ 299) →
      handleResponse r config = Except.ok (decodeOf r)) := by
  constructor
  · intro hbad
    have hok : r.ok = false := by
      simp only [Response.ok]
      simp only [Bool.and_eq_false_iff, decide_eq_false_iff_not]
      omega
    simp [handleResponse, hok, mkFetchClientError, decodeOf]
  · intro hgood
    have hok : r.ok = true := by
      simp only [Response.ok]
      simp only [Bool.and_eq_true, decide_eq_true_eq]
      omega
    simp [handleResponse, hok, decodeOf]

/-- Witness for C6: a 404 response raises the structured error, a 200
response returns the decoded payload. -/
theorem c6_structured_error_shape_witness :
    handleResponse
        { status := 404, headers := [("Content-Type", "application/json")], body := "e" }
        {} =
      Except.error
        { name := "FetchClientError", message := "Fetch error", config := some {},
          code := some "404", request := none,
          response :=
            some { status := 404, headers := [("Content-Type", "application/json")],
                   body := "e" },
          isAxiosError := true,
          data :=
            decodeOf { status := 404, headers := [("Content-Type", "application/json")],
                       body := "e" } } ∧
    handleResponse { status := 200, headers := [], body := "t" } {} =
      Except.ok (decodeOf { status := 200, headers := [], body := "t" }) :=
  ⟨(c6_structured_error_shape _ _).1 (by decide),
   (c6_structured_error_shape _ _).2 (by decide)⟩

/-! ## Claim C8 -/

/-- C8: the received body is decoded as JSON exactly when the `Content-Type`
response header (case-insensitive lookup, empty when absent) contains
`"application/json"`, and as plain text otherwise; and BOTH outcomes of
`handleResponse` — the 2xx payload and the error's `data` — carry that same
decoding, i.e. decoding is independent of the success/failure check. -/
theorem c8_decode_rule (r : Response) (config : RequestInit) :
    (decodeOf r = Decoded.json r.body ↔
      strIncludes ((headersGet r.headers "Content-Type").getD "") "application/json" = true) ∧
    (decodeOf r = Decoded.json r.body ∨ decodeOf r = Decoded.text r.body) ∧
    (∀ d, handleResponse r config = Except.ok d → d = decodeOf r) ∧
    (∀ e, handleResponse r config = Except.error e → e.data = decodeOf r) := by
  refine ⟨?_, ?_, ?_, ?_⟩
  · unfold decodeOf
    cases hb : strIncludes ((headersGet r.headers "Content-Type").getD "") "application/json" with
    | true => simp
    | false => simp
  · unfold decodeOf
    cases hb : strIncludes ((headersGet r.headers "Content-Type").getD "") "application/json" with
    | true => simp
    | false => simp
  · intro d h
    unfold handleResponse at h
    cases hok : r.ok with
    | true =>
      simp only [hok, Bool.not_true, if_neg] at h
      · cases h
        unfold decodeOf
        rfl
    | false => simp [hok] at h
  · intro e h
    unfold handleResponse at h
    cases hok : r.ok with
    | true => simp [hok] at h
    | false =>
      simp only [hok, Bool.not_false, if_pos] at h
      · cases h
        unfold decodeOf mkFetchClientError
        rfl

/-! ## Store-extension lemmas for the allocation-level serializer -/

theorem Extends_refl (σ : AllocSt) : Extends σ σ := by
  refine ⟨le_refl _, [], ?_, ?_⟩
  · rw [List.append_nil]
  · intro p hp; cases hp

theorem Extends_trans {σ1 σ2 σ3 : AllocSt} (h12 : Extends σ1 σ2) (h23 : Extends σ2 σ3) :
    Extends σ1 σ3 := by
  obtain ⟨hn12, e12, hs12, hf12⟩ := h12
  obtain ⟨hn23, e23, hs23, hf23⟩ := h23
  refine ⟨le_trans hn12 hn23, e12 ++ e23, ?_, ?_⟩
  · rw [hs23, hs12, List.append_assoc]
  · intro p hp
    rcases List.mem_append.mp hp with hp | hp
    · exact hf12 p hp
    · exact le_trans hn12 (hf23 p hp)

theorem alloc_extends (σ : AllocSt) (nd : JSNode) :
    Extends σ ⟨σ.store ++ [(σ.next, nd)], σ.next + 1⟩ := by
  refine ⟨Nat.le_succ _, [(σ.next, nd)], rfl, ?_⟩
  intro p hp
  rcases List.mem_singleton.mp hp with rfl
  exact le_refl _

theorem serListA_extends
    {g : JSValue → List Nat → AllocSt → Option (JSValue × List Nat × AllocSt)}
    (hg : ∀ x s σ out, g x s σ = some out → Extends σ out.2.2) :
    ∀ xs s σ out, serListA g xs s σ = some out → Extends σ out.2.2 := by
  intro xs
  induction xs with
  | nil =>
    intro s σ out h
    cases h
    exact Extends_refl σ
  | cons x xs ih =>
    intro s σ out h
    simp only [serListA] at h
    cases h1 : g x s σ with
    | none => simp [h1] at h
    | some o1 =>
      obtain ⟨v1, s1, σ1⟩ := o1
      simp only [h1] at h
      cases h2 : serListA g xs s1 σ1 with
      | none => simp [h2] at h
      | some o2 =>
        obtain ⟨vs2, s2, σ2⟩ := o2
        simp only [h2] at h
        cases h
        exact Extends_trans (hg x s σ _ h1) (ih s1 σ1 (vs2, s2, σ2) h2)

theorem serPairsA_extends
    {g : JSValue → List Nat → AllocSt → Option (JSValue × List Nat × AllocSt)}
    (hg : ∀ x s σ out, g x s σ = some out → Extends σ out.2.2) :
    ∀ ps s σ out, serPairsA g ps s σ = some out → Extends σ out.2.2 := by
  intro ps
  induction ps with
  | nil =>
    intro s σ out h
    cases h
    exact Extends_refl σ
  | cons p ps ih =>
    intro s σ out h
    obtain ⟨k, v⟩ := p
    simp only [serPairsA] at h
    cases h1 : g k s σ with
    | none => simp [h1] at h
    | some o1 =>
      obtain ⟨rk, s1, σ1⟩ := o1
      simp only [h1] at h
      cases h2 : g v s1 σ1 with
      | none => simp [h2] at h
      | some o2 =>
        obtain ⟨rv, s2, σ2⟩ := o2
        simp only [h2, allocNode] at h
        cases h3 : serPairsA g ps s2 ⟨σ2.store ++ [(σ2.next, .arrNode [rk, rv])], σ2.next + 1⟩ with
        | none => simp [h3] at h
        | some o3 =>
          obtain ⟨vs3, s3, σ3⟩ := o3
          simp only [h3] at h
          cases h
          exact Extends_trans (hg k s σ _ h1)
            (Extends_trans (hg v s1 σ1 _ h2)
              (Extends_trans (alloc_extends σ2 (.arrNode [rk, rv])) (ih s2 _ (vs3, s3, σ3) h3)))

theorem serFieldsA_extends
    {g : JSValue → List Nat → AllocSt → Option (JSValue × List Nat × AllocSt)}
    (hg : ∀ x s σ out, g x s σ = some out → Extends σ out.2.2) :
    ∀ fs s σ out, serFieldsA g fs s σ = some out → Extends σ out.2.2 := by
  intro fs
  induction fs with
  | nil =>
    intro s σ out h
    cases h
    exact Extends_refl σ
  | cons p fs ih =>
    intro s σ out h
    obtain ⟨k, v⟩ := p
    simp only [serFieldsA] at h
    cases h1 : g v s σ with
    | none => simp [h1] at h
    | some o1 =>
      obtain ⟨rv, s1, σ1⟩ := o1
      simp only [h1] at h
      cases h2 : serFieldsA g fs s1 σ1 with
      | none => simp [h2] at h
      | some o2 =>
        obtain ⟨vs2, s2, σ2⟩ := o2
        simp only [h2] at h
        cases h
        exact Extends_trans (hg v s σ _ h1) (ih s1 σ1 (vs2, s2, σ2) h2)

/-- One-step unfolding of `transformAllocF` on a reference. -/
theorem transformAllocF_ref_unfold (f : Nat) (id : Nat) (seen : List Nat) (σ : AllocSt) :
    transformAllocF (f + 1) (.ref id) seen σ =
      match lookupNode σ.store id with
      | some (.mapNode entries) =>
        match serPairsA (fun x s τ => transformAllocF f x s τ) entries seen σ with
        | none => none
        | some (pairRefs, seen1, σ1) =>
          match allocNode σ1 (.arrNode pairRefs) with
          | (va, σ2) =>
            match allocNode σ2 (.objNode [("type", .prim (.pstr "Map")), ("value", va)]) with
            | (vo, σ3) => some (vo, seen1, σ3)
      | some (.setNode items) =>
        match serListA (fun x s τ => transformAllocF f x s τ) items seen σ with
        | none => none
        | some (itemRefs, seen1, σ1) =>
          match allocNode σ1 (.arrNode itemRefs) with
          | (va, σ2) =>
            match allocNode σ2 (.objNode [("type", .prim (.pstr "Set")), ("value", va)]) with
            | (vo, σ3) => some (vo, seen1, σ3)
      | some (.arrNode items) =>
        if seen.contains id then some (.prim (.pstr "[Circular Reference]"), seen, σ)
        else
          match serListA (fun x s τ => transformAllocF f x s τ) items (id :: seen) σ with
          | none => none
          | some (itemRefs, seen1, σ1) =>
            match allocNode σ1 (.arrNode itemRefs) with
            | (va, σ2) => some (va, seen1, σ2)
      | some (.objNode fields) =>
        if seen.contains id then some (.prim (.pstr "[Circular Reference]"), seen, σ)
        else
          match serFieldsA (fun x s τ => transformAllocF f x s τ) fields (id :: seen) σ with
          | none => none
          | some (fieldRefs, seen1, σ1) =>
            match allocNode σ1 (.objNode fieldRefs) with
            | (vo, σ2) => some (vo, seen1, σ2)
      | none => none := rfl

theorem transformAllocF_extends :
    ∀ fuel v seen σ out, transformAllocF fuel v seen σ = some out → Extends σ out.2.2 := by
  intro fuel
  induction fuel with
  | zero => intro v seen σ out h; cases h
  | succ f ih =>
    intro v seen σ out h
    cases v with
    | bigint n => cases h; exact Extends_refl σ
    | date ms => cases h; exact Extends_refl σ
    | prim p => cases h; exact Extends_refl σ
    | ref id =>
      rw [transformAllocF_ref_unfold] at h
      cases hn : lookupNode σ.store id with
      | none => simp [hn] at h
      | some node =>
        cases node with
        | mapNode entries =>
          simp only [hn] at h
          cases h1 : serPairsA (fun x s τ => transformAllocF f x s τ) entries seen σ with
          | none => simp [h1] at h
          | some o1 =>
            obtain ⟨pairRefs, s1, σ1⟩ := o1
            simp only [h1, allocNode] at h
            cases h
            exact Extends_trans (serPairsA_extends (fun x s τ o hx => ih x s τ o hx)
                entries seen σ _ h1)
              (Extends_trans (alloc_extends σ1 (.arrNode pairRefs))
                (alloc_extends _ _))
        | setNode items =>
          simp only [hn] at h
          cases h1 : serListA (fun x s τ => transformAllocF f x s τ) items seen σ with
          | none => simp [h1] at h
          | some o1 =>
            obtain ⟨itemRefs, s1, σ1⟩ := o1
            simp only [h1, allocNode] at h
            cases h
            exact Extends_trans (serListA_extends (fun x s τ o hx => ih x s τ o hx)
                items seen σ _ h1)
              (Extends_trans (alloc_extends σ1 (.arrNode itemRefs))
                (alloc_extends _ _))
        | arrNode items =>
          simp only [hn] at h
          cases hc : seen.contains id with
          | true => simp only [hc, if_true] at h; cases h; exact Extends_refl σ
          | false =>
            simp only [hc, if_false] at h
            cases h1 : serListA (fun x s τ => transformAllocF f x s τ) items (id :: seen) σ with
            | none => simp [h1] at h
            | some o1 =>
              obtain ⟨itemRefs, s1, σ1⟩ := o1
              simp only [h1, allocNode] at h
              cases h
              exact Extends_trans (serListA_extends (fun x s τ o hx => ih x s τ o hx)
                  items (id :: seen) σ _ h1)
                (alloc_extends σ1 (.arrNode itemRefs))
        | objNode fields =>
          simp only [hn] at h
          cases hc : seen.contains id with
          | true => simp only [hc, if_true] at h; cases h; exact Extends_refl σ
          | false =>
            simp only [hc, if_false] at h
            cases h1 : serFieldsA (fun x s τ => transformAllocF f x s τ) fields (id :: seen) σ with
            | none => simp [h1] at h
            | some o1 =>
              obtain ⟨fieldRefs, s1, σ1⟩ := o1
              simp only [h1, allocNode] at h
              cases h
              exact Extends_trans (serFieldsA_extends (fun x s τ o hx => ih x s τ o hx)
                  fields (id :: seen) σ _ h1)
                (alloc_extends σ1 (.objNode fieldRefs))

theorem lookupNode_append_left (A B : Heap) (id : Nat) (nd : JSNode)
    (h : lookupNode A id = some nd) : lookupNode (A ++ B) id = some nd := by
  unfold lookupNode at h ⊢
  rw [List.find?_append]
  cases hf : A.find? (fun p => p.1 == id) with
  | none => rw [hf] at h; cases h
  | some q => rw [hf] at h; simp [Option.or, hf, h]

/-! ## Claim C9 -/

/-- C9: the serializer never mutates its input.  In the allocation-explicit
model every run only appends freshly allocated composites to the store: every
binding present before the call is still found unchanged afterwards, and all
added structure carries ids at or above the allocation counter (fresh, hence
distinct from every pre-existing object).  The `WeakSet` of seen ids is a
fresh private object, not reachable from the input. -/
theorem c9_serializer_no_mutation (fuel : Nat) (v : JSValue) (seen : List Nat)
    (σ : AllocSt) (out : JSValue × List Nat × AllocSt)
    (h : transformAllocF fuel v seen σ = some out) :
    (∀ id nd, lookupNode σ.store id = some nd → lookupNode out.2.2.store id = some nd) ∧
    (∃ ext, out.2.2.store = σ.store ++ ext ∧ ∀ p ∈ ext, σ.next ≤ p.1) := by
  obtain ⟨hnext, ext, hstore, hfresh⟩ := transformAllocF_extends fuel v seen σ out h
  constructor
  · intro id nd hl
    rw [hstore]
    exact lookupNode_append_left σ.store ext id nd hl
  · exact ⟨ext, hstore, hfresh⟩

/-- Witness for C9: one concrete run over the store `{0 ↦ {a: null}}`. -/
theorem c9_serializer_no_mutation_witness :
    (∀ id nd, lookupNode [(0, JSNode.objNode [("a", .prim .pnull)])] id = some nd →
      lookupNode [(0, JSNode.objNode [("a", .prim .pnull)]),
        (1, JSNode.objNode [("a", .prim .pnull)])] id = some nd) ∧
    (∃ ext, [(0, JSNode.objNode [("a", .prim .pnull)]),
        (1, JSNode.objNode [("a", .prim .pnull)])] =
      [(0, JSNode.objNode [("a", .prim .pnull)])] ++ ext ∧ ∀ p ∈ ext, 1 ≤ p.1) :=
  c9_serializer_no_mutation 2 (.ref 0) [] ⟨[(0, .objNode [("a", .prim .pnull)])], 1⟩
    (.ref 1, [0], ⟨[(0, .objNode [("a", .prim .pnull)]),
      (1, .objNode [("a", .prim .pnull)])], 2⟩) rfl

/-- Witness for C8 at a concrete JSON-typed 404 response. -/
theorem c8_decode_rule_witness :
    ({ name := "FetchClientError", message := "Fetch error", config := some {},
       code := some "404", request := none,
       response :=
         some { status := 404, headers := [("Content-Type", "application/json")],
                body := "b" },
       isAxiosError := true, data := Decoded.json "b" } : FetchClientError).data =
      decodeOf { status := 404, headers := [("Content-Type", "application/json")],
                 body := "b" } :=
  (c8_decode_rule
    { status := 404, headers := [("Content-Type", "application/json")], body := "b" }
    {}).2.2.2 _ (by rfl)

/-! ## Metadata of the output re-embedding

`embedV t n` allocates the composites of the tree `t` at ids in `[n, n')`
with strictly increasing (hence pairwise distinct) keys. -/

theorem embedMetaL_of (l : List SValue)
    (hx : ∀ x ∈ l, ∀ m v hs m', embedV x m = (v, hs, m') →
      m ≤ m' ∧ (∀ p ∈ hs, m ≤ p.1 ∧ p.1 < m') ∧ hs.Pairwise (fun p q => p.1 < q.1)) :
    ∀ n vs hs n', embedL l n = (vs, hs, n') →
      n ≤ n' ∧ (∀ p ∈ hs, n ≤ p.1 ∧ p.1 < n') ∧ hs.Pairwise (fun p q => p.1 < q.1) := by
  induction l with
  | nil =>
    intro n vs hs n' hb
    simp only [embedL] at hb
    cases hb
    exact ⟨le_refl _, by simp, by simp⟩
  | cons x xs ih =>
    intro n vs hs n' hb
    rcases hb1 : embedV x n with ⟨v1, h1, m1⟩
    rcases hb2 : embedL xs m1 with ⟨v2, h2, m2⟩
    simp only [embedL, hb1, hb2] at hb
    cases hb
    obtain ⟨e1, b1, p1⟩ := hx x (List.mem_cons_self _ _) n v1 h1 m1 hb1
    obtain ⟨e2, b2, p2⟩ := ih (fun y hy => hx y (List.mem_cons_of_mem _ hy)) m1 v2 h2 n' hb2
    refine ⟨by omega, ?_, ?_⟩
    · intro p hp
      rcases List.mem_append.mp hp with hp | hp
      · have := b1 p hp; omega
      · have := b2 p hp; omega
    · rw [List.pairwise_append]
      refine ⟨p1, p2, ?_⟩
      intro a ha b hb'
      have := b1 a ha
      have := b2 b hb'
      omega

theorem embedMetaF_of (fs : List (String × SValue))
    (hx : ∀ p ∈ fs, ∀ m v hs m', embedV p.2 m = (v, hs, m') →
      m ≤ m' ∧ (∀ q ∈ hs, m ≤ q.1 ∧ q.1 < m') ∧ hs.Pairwise (fun p q => p.1 < q.1)) :
    ∀ n vs hs n', embedF fs n = (vs, hs, n') →
      n ≤ n' ∧ (∀ q ∈ hs, n ≤ q.1 ∧ q.1 < n') ∧ hs.Pairwise (fun p q => p.1 < q.1) := by
  induction fs with
  | nil =>
    intro n vs hs n' hb
    simp only [embedF] at hb
    cases hb
    exact ⟨le_refl _, by simp, by simp⟩
  | cons p fs ih =>
    intro n vs hs n' hb
    obtain ⟨k, x⟩ := p
    rcases hb1 : embedV x n with ⟨v1, h1, m1⟩
    rcases hb2 : embedF fs m1 with ⟨v2, h2, m2⟩
    simp only [embedF, hb1, hb2] at hb
    cases hb
    obtain ⟨e1, b1, p1⟩ := hx (k, x) (List.mem_cons_self _ _) n v1 h1 m1 hb1
    obtain ⟨e2, b2, p2⟩ := ih (fun q hq => hx q (List.mem_cons_of_mem _ hq)) m1 v2 h2 n' hb2
    refine ⟨by omega, ?_, ?_⟩
    · intro q hq
      rcases List.mem_append.mp hq with hq | hq
      · have := b1 q hq; omega
      · have := b2 q hq; omega
    · rw [List.pairwise_append]
      refine ⟨p1, p2, ?_⟩
      intro a ha b hb'
      have := b1 a ha
      have := b2 b hb'
      omega

theorem embedMetaV_aux :
    ∀ k t, sizeOf t ≤ k → ∀ n v hs n', embedV t n = (v, hs, n') →
      n ≤ n' ∧ (∀ p ∈ hs, n ≤ p.1 ∧ p.1 < n') ∧ hs.Pairwise (fun p q => p.1 < q.1) := by
  intro k
  induction k with
  | zero =>
    intro t ht
    exfalso
    cases t <;> simp at ht
  | succ k ih =>
    intro t ht n v hs n' hb
    cases t with
    | snull =>
      simp only [embedV] at hb
      cases hb
      exact ⟨le_refl _, by simp, by simp⟩
    | sundef =>
      simp only [embedV] at hb
      cases hb
      exact ⟨le_refl _, by simp, by simp⟩
    | str s =>
      simp only [embedV] at hb
      cases hb
      exact ⟨le_refl _, by simp, by simp⟩
    | num m =>
      simp only [embedV] at hb
      cases hb
      exact ⟨le_refl _, by simp, by simp⟩
    | bool b =>
      simp only [embedV] at hb
      cases hb
      exact ⟨le_refl _, by simp, by simp⟩
    | arr items =>
      rcases hbl : embedL items n with ⟨vs0, hs0, n1⟩
      simp only [embedV, hbl] at hb
      cases hb
      have hmeta := embedMetaL_of items
        (fun x hxm => ih x (by
          have h1 : sizeOf x < sizeOf items := List.sizeOf_lt_of_mem hxm
          have h2 : sizeOf (SValue.arr items) = 1 + sizeOf items := by simp
          omega))
        n vs0 hs0 n1 hbl
      obtain ⟨e1, b1, p1⟩ := hmeta
      refine ⟨by omega, ?_, ?_⟩
      · intro p hp
        rcases List.mem_append.mp hp with hp | hp
        · have := b1 p hp; omega
        · rcases List.mem_singleton.mp hp with rfl
          constructor
          · simpa using e1
          · simp
      · rw [List.pairwise_append]
        refine ⟨p1, List.pairwise_singleton _ _, ?_⟩
        intro a ha b hb'
        rcases List.mem_singleton.mp hb' with rfl
        have := b1 a ha
        show a.1 < n1
        omega
    | obj fields =>
      rcases hbl : embedF fields n with ⟨vs0, hs0, n1⟩
      simp only [embedV, hbl] at hb
      cases hb
      have hmeta := embedMetaF_of fields
        (fun p hpm => ih p.2 (by
          have h1 : sizeOf p < sizeOf fields := List.sizeOf_lt_of_mem hpm
          have h2 : sizeOf (SValue.obj fields) = 1 + sizeOf fields := by simp
          have h3 : sizeOf p = 1 + sizeOf p.1 + sizeOf p.2 := by cases p; simp
          omega))
        n vs0 hs0 n1 hbl
      obtain ⟨e1, b1, p1⟩ := hmeta
      refine ⟨by omega, ?_, ?_⟩
      · intro p hp
        rcases List.mem_append.mp hp with hp | hp
        · have := b1 p hp; omega
        · rcases List.mem_singleton.mp hp with rfl
          constructor
          · simpa using e1
          · simp
      · rw [List.pairwise_append]
        refine ⟨p1, List.pairwise_singleton _ _, ?_⟩
        intro a ha b hb'
        rcases List.mem_singleton.mp hb' with rfl
        have := b1 a ha
        show a.1 < n1
        omega

theorem embedMetaV (t : SValue) :
    ∀ n v hs n', embedV t n = (v, hs, n') →
      n ≤ n' ∧ (∀ p ∈ hs, n ≤ p.1 ∧ p.1 < n') ∧ hs.Pairwise (fun p q => p.1 < q.1) :=
  embedMetaV_aux (sizeOf t) t (le_refl _)

theorem embedMetaL (l : List SValue) :
    ∀ n vs hs n', embedL l n = (vs, hs, n') →
      n ≤ n' ∧ (∀ p ∈ hs, n ≤ p.1 ∧ p.1 < n') ∧ hs.Pairwise (fun p q => p.1 < q.1) :=
  embedMetaL_of l (fun x _ => embedMetaV x)

theorem embedMetaF (fs : List (String × SValue)) :
    ∀ n vs hs n', embedF fs n = (vs, hs, n') →
      n ≤ n' ∧ (∀ q ∈ hs, n ≤ q.1 ∧ q.1 < n') ∧ hs.Pairwise (fun p q => p.1 < q.1) :=
  embedMetaF_of fs (fun p _ => embedMetaV p.2)

/-! ## Association-list lookup in a strictly sorted heap -/

theorem lookupNode_cons_self (a : Nat) (nd : JSNode) (E : Heap) :
    lookupNode ((a, nd) :: E) a = some nd := by
  unfold lookupNode
  simp [List.find?]

theorem lookupNode_cons_ne (a b : Nat) (nd : JSNode) (E : Heap) (hne : a ≠ b) :
    lookupNode ((a, nd) :: E) b = lookupNode E b := by
  unfold lookupNode
  have hpf : (((a, nd) : Nat × JSNode).1 == b) = false := by simp [hne]
  simp [List.find?, hpf]

theorem lookup_self_of_pairwise (E : Heap)
    (hpw : E.Pairwise (fun p q => p.1 < q.1)) :
    ∀ p ∈ E, lookupNode E p.1 = some p.2 := by
  induction E with
  | nil => intro p hp; cases hp
  | cons q E ih =>
    intro p hp
    rcases List.mem_cons.mp hp with rfl | hp'
    · obtain ⟨a, nd⟩ := p
      exact lookupNode_cons_self a nd E
    · obtain ⟨a, nd⟩ := q
      have hlt : a < p.1 := by
        have := (List.pairwise_cons.mp hpw).1 p hp'
        simpa using this
      rw [lookupNode_cons_ne a p.1 nd E (by omega)]
      exact ih (List.pairwise_cons.mp hpw).2 p hp'

/-! ## The serializer is the identity on its own materialized output -/

theorem embed_roundtrip_list (Hbig : Heap) (l : List SValue)
    (hx : ∀ x ∈ l, ∀ m seen v hs m', embedV x m = (v, hs, m') →
      (∀ a nd, (a, nd) ∈ hs → lookupNode Hbig a = some nd) →
      (∀ a ∈ seen, a < m ∨ m' ≤ a) →
      ∃ f s', transformF Hbig f v seen = some (x, s') ∧
        (∀ a ∈ s', a ∈ seen ∨ (m ≤ a ∧ a < m'))) :
    ∀ n seen vs hs n', embedL l n = (vs, hs, n') →
      (∀ a nd, (a, nd) ∈ hs → lookupNode Hbig a = some nd) →
      (∀ a ∈ seen, a < n ∨ n' ≤ a) →
      ∃ f s', serList (fun a b => transformF Hbig f a b) vs seen = some (l, s') ∧
        (∀ a ∈ s', a ∈ seen ∨ (n ≤ a ∧ a < n')) := by
  induction l with
  | nil =>
    intro n seen vs hs n' hb _ _
    simp only [embedL] at hb
    cases hb
    exact ⟨0, seen, rfl, fun a ha => Or.inl ha⟩
  | cons x xs ih =>
    intro n seen vs hs n' hb hlook hseen
    rcases hb1 : embedV x n with ⟨v1, h1, m1⟩
    rcases hb2 : embedL xs m1 with ⟨v2, h2, m2⟩
    simp only [embedL, hb1, hb2] at hb
    cases hb
    have e0 : n ≤ m1 := (embedMetaV x n v1 h1 m1 hb1).1
    have e1 : m1 ≤ n' := (embedMetaL xs m1 v2 h2 n' hb2).1
    obtain ⟨f1, s1, hh1, c1⟩ := hx x (List.mem_cons_self _ _) n seen v1 h1 m1 hb1
      (fun a nd hm => hlook a nd (List.mem_append.mpr (Or.inl hm)))
      (fun a ha => by have := hseen a ha; omega)
    obtain ⟨f2, s2, hh2, c2⟩ := ih (fun y hy => hx y (List.mem_cons_of_mem _ hy)) m1 s1 v2 h2 n' hb2
      (fun a nd hm => hlook a nd (List.mem_append.mpr (Or.inr hm)))
      (fun a ha => by
        rcases c1 a ha with ha' | ha'
        · have := hseen a ha'; omega
        · omega)
    refine ⟨max f1 f2, s2, ?_, ?_⟩
    · have hh1' : transformF Hbig (max f1 f2) v1 seen = some (x, s1) :=
        transformF_mono Hbig (le_max_left _ _) v1 seen (x, s1) hh1
      have hh2' : serList (fun a b => transformF Hbig (max f1 f2) a b) v2 s1 = some (xs, s2) :=
        serList_mono (fun a b r hr => transformF_mono Hbig (le_max_right _ _) a b r hr)
          v2 s1 (xs, s2) hh2
      simp only [serList, hh1', hh2']
    · intro a ha
      rcases c2 a ha with ha' | ha'
      · rcases c1 a ha' with h'' | h''
        · exact Or.inl h''
        · exact Or.inr ⟨h''.1, by omega⟩
      · exact Or.inr ⟨by omega, by omega⟩

theorem embed_roundtrip_fields (Hbig : Heap) (fs : List (String × SValue))
    (hx : ∀ p ∈ fs, ∀ m seen v hs m', embedV p.2 m = (v, hs, m') →
      (∀ a nd, (a, nd) ∈ hs → lookupNode Hbig a = some nd) →
      (∀ a ∈ seen, a < m ∨ m' ≤ a) →
      ∃ f s', transformF Hbig f v seen = some (p.2, s') ∧
        (∀ a ∈ s', a ∈ seen ∨ (m ≤ a ∧ a < m'))) :
    ∀ n seen vs hs n', embedF fs n = (vs, hs, n') →
      (∀ a nd, (a, nd) ∈ hs → lookupNode Hbig a = some nd) →
      (∀ a ∈ seen, a < n ∨ n' ≤ a) →
      ∃ f s', serFields (fun a b => transformF Hbig f a b) vs seen = some (fs, s') ∧
        (∀ a ∈ s', a ∈ seen ∨ (n ≤ a ∧ a < n')) := by
  induction fs with
  | nil =>
    intro n seen vs hs n' hb _ _
    simp only [embedF] at hb
    cases hb
    exact ⟨0, seen, rfl, fun a ha => Or.inl ha⟩
  | cons p fs ih =>
    intro n seen vs hs n' hb hlook hseen
    obtain ⟨k, x⟩ := p
    rcases hb1 : embedV x n with ⟨v1, h1, m1⟩
    rcases hb2 : embedF fs m1 with ⟨v2, h2, m2⟩
    simp only [embedF, hb1, hb2] at hb
    cases hb
    have e0 : n ≤ m1 := (embedMetaV x n v1 h1 m1 hb1).1
    have e1 : m1 ≤ n' := (embedMetaF fs m1 v2 h2 n' hb2).1
    obtain ⟨f1, s1, hh1, c1⟩ := hx (k, x) (List.mem_cons_self _ _) n seen v1 h1 m1 hb1
      (fun a nd hm => hlook a nd (List.mem_append.mpr (Or.inl hm)))
      (fun a ha => by have := hseen a ha; omega)
    obtain ⟨f2, s2, hh2, c2⟩ := ih (fun q hq => hx q (List.mem_cons_of_mem _ hq)) m1 s1 v2 h2 n' hb2
      (fun a nd hm => hlook a nd (List.mem_append.mpr (Or.inr hm)))
      (fun a ha => by
        rcases c1 a ha with ha' | ha'
        · have := hseen a ha'; omega
        · omega)
    refine ⟨max f1 f2, s2, ?_, ?_⟩
    · have hh1' : transformF Hbig (max f1 f2) v1 seen = some (x, s1) :=
        transformF_mono Hbig (le_max_left _ _) v1 seen (x, s1) hh1
      have hh2' : serFields (fun a b => transformF Hbig (max f1 f2) a b) v2 s1 = some (fs, s2) :=
        serFields_mono (fun a b r hr => transformF_mono Hbig (le_max_right _ _) a b r hr)
          v2 s1 (fs, s2) hh2
      simp only [serFields, hh1', hh2']
    · intro a ha
      rcases c2 a ha with ha' | ha'
      · rcases c1 a ha' with h'' | h''
        · exact Or.inl h''
        · exact Or.inr ⟨h''.1, by omega⟩
      · exact Or.inr ⟨by omega, by omega⟩

theorem embed_roundtrip_aux (Hbig : Heap) :
    ∀ k t, sizeOf t ≤ k → ∀ n seen v hs n', embedV t n = (v, hs, n') →
      (∀ a nd, (a, nd) ∈ hs → lookupNode Hbig a = some nd) →
      (∀ a ∈ seen, a < n ∨ n' ≤ a) →
      ∃ f s', transformF Hbig f v seen = some (t, s') ∧
        (∀ a ∈ s', a ∈ seen ∨ (n ≤ a ∧ a < n')) := by
  intro k
  induction k with
  | zero =>
    intro t ht
    exfalso
    cases t <;> simp at ht
  | succ k ih =>
    intro t ht n seen v hs n' hb hlook hseen
    cases t with
    | snull =>
      simp only [embedV] at hb
      cases hb
      exact ⟨1, seen, rfl, fun a ha => Or.inl ha⟩
    | sundef =>
      simp only [embedV] at hb
      cases hb
      exact ⟨1, seen, rfl, fun a ha => Or.inl ha⟩
    | str s =>
      simp only [embedV] at hb
      cases hb
      exact ⟨1, seen, rfl, fun a ha => Or.inl ha⟩
    | num m =>
      simp only [embedV] at hb
      cases hb
      exact ⟨1, seen, rfl, fun a ha => Or.inl ha⟩
    | bool b =>
      simp only [embedV] at hb
      cases hb
      exact ⟨1, seen, rfl, fun a ha => Or.inl ha⟩
    | arr items =>
      rcases hbl : embedL items n with ⟨vs0, hs0, n1⟩
      simp only [embedV, hbl] at hb
      cases hb
      have e0 : n ≤ n1 := (embedMetaL items n vs0 hs0 n1 hbl).1
      have hlookn1 : lookupNode Hbig n1 = some (.arrNode vs0) :=
        hlook n1 _ (List.mem_append.mpr (Or.inr (List.mem_singleton.mpr rfl)))
      have hn1 : n1 ∉ seen := by
        intro hmem
        rcases hseen n1 hmem with h' | h' <;> omega
      have hnotin : seen.contains n1 = false := by
        simp [List.elem_iff]
        exact hn1
      obtain ⟨f, s', hser, c⟩ := embed_roundtrip_list Hbig items
        (fun x hxm m sn v' hs' m' hb' hl' hsn' => ih x (by
            have h1 : sizeOf x < sizeOf items := List.sizeOf_lt_of_mem hxm
            have h2 : sizeOf (SValue.arr items) = 1 + sizeOf items := by simp
            omega)
          m sn v' hs' m' hb' hl' hsn')
        n (n1 :: seen) vs0 hs0 n1 hbl
        (fun a nd hm => hlook a nd (List.mem_append.mpr (Or.inl hm)))
        (fun a ha => by
          rcases List.mem_cons.mp ha with rfl | ha'
          · omega
          · have := hseen a ha'; omega)
      refine ⟨f + 1, s', ?_, ?_⟩
      · rw [transformF_ref_unfold, hlookn1, hnotin]
        simp [hser]
      · intro a ha
        rcases c a ha with ha' | ha'
        · rcases List.mem_cons.mp ha' with rfl | h''
          · exact Or.inr ⟨e0, by omega⟩
          · exact Or.inl h''
        · exact Or.inr ⟨ha'.1, by omega⟩
    | obj fields =>
      rcases hbl : embedF fields n with ⟨vs0, hs0, n1⟩
      simp only [embedV, hbl] at hb
      cases hb
      have e0 : n ≤ n1 := (embedMetaF fields n vs0 hs0 n1 hbl).1
      have hlookn1 : lookupNode Hbig n1 = some (.objNode vs0) :=
        hlook n1 _ (List.mem_append.mpr (Or.inr (List.mem_singleton.mpr rfl)))
      have hn1 : n1 ∉ seen := by
        intro hmem
        rcases hseen n1 hmem with h' | h' <;> omega
      have hnotin : seen.contains n1 = false := by
        simp [List.elem_iff]
        exact hn1
      obtain ⟨f, s', hser, c⟩ := embed_roundtrip_fields Hbig fields
        (fun p hpm m sn v' hs' m' hb' hl' hsn' => ih p.2 (by
            have h1 : sizeOf p < sizeOf fields := List.sizeOf_lt_of_mem hpm
            have h2 : sizeOf (SValue.obj fields) = 1 + sizeOf fields := by simp
            have h3 : sizeOf p = 1 + sizeOf p.1 + sizeOf p.2 := by cases p; simp
            omega)
          m sn v' hs' m' hb' hl' hsn')
        n (n1 :: seen) vs0 hs0 n1 hbl
        (fun a nd hm => hlook a nd (List.mem_append.mpr (Or.inl hm)))
        (fun a ha => by
          rcases List.mem_cons.mp ha with rfl | ha'
          · omega
          · have := hseen a ha'; omega)
      refine ⟨f + 1, s', ?_, ?_⟩
      · rw [transformF_ref_unfold, hlookn1, hnotin]
        simp [hser]
      · intro a ha
        rcases c a ha with ha' | ha'
        · rcases List.mem_cons.mp ha' with rfl | h''
          · exact Or.inr ⟨e0, by omega⟩
          · exact Or.inl h''
        · exact Or.inr ⟨ha'.1, by omega⟩

/-! ## Claim C10 -/

/-- C10: on every acyclic input (certified by a rank function that decreases
along every edge of the value graph, with all references resolving) the
serializer terminates with output `r`, and serializing `r` itself — the
output materialized as a fresh value graph by `embedV` — returns `r` again:
the serializer is idempotent on its own output, which consists only of
primitives, plain arrays and plain objects. -/
theorem c10_serializer_idempotent (H : Heap) (rank : Nat → Nat) (x : JSValue)
    (hclosed : heapClosed H) (hrank : rankDec H rank)
    (hroot : ∀ id ∈ valRefIds x, (lookupNode H id).isSome) :
    ∃ f r s, transformF H f x [] = some (r, s) ∧
      ∀ v2 E n2, embedV r 0 = (v2, E, n2) →
        ∃ f2 s2, transformF E f2 v2 [] = some (r, s2) := by
  obtain ⟨f, rs, hf⟩ :=
    transformF_term_of_rank H rank hclosed hrank (rkV rank x) x (le_refl _) hroot []
  obtain ⟨r, s⟩ := rs
  refine ⟨f, r, s, hf, ?_⟩
  intro v2 E n2 hb
  have hmeta := embedMetaV r 0 v2 E n2 hb
  obtain ⟨f2, s2, h2, _⟩ := embed_roundtrip_aux E (sizeOf r) r (le_refl _) 0 [] v2 E n2 hb
    (fun a nd hm => by
      have := lookup_self_of_pairwise E hmeta.2.2 (a, nd) hm
      simpa using this)
    (fun a ha => absurd ha (List.not_mem_nil a))
  exact ⟨f2, s2, h2⟩

/-- Witness for C10 at a concrete acyclic two-node heap
`{0 ↦ {a: 5n, b: ref 1}, 1 ↦ [Date(3), "x"]}` with rank `0 ↦ 1, 1 ↦ 0`. -/
theorem c10_serializer_idempotent_witness :
    ∃ f r s,
      transformF [(0, .objNode [("a", .bigint 5), ("b", .ref 1)]),
          (1, .arrNode [.date 3, .prim (.pstr "x")])] f (.ref 0) [] = some (r, s) ∧
      ∀ v2 E n2, embedV r 0 = (v2, E, n2) →
        ∃ f2 s2, transformF E f2 v2 [] = some (r, s2) :=
  c10_serializer_idempotent
    [(0, .objNode [("a", .bigint 5), ("b", .ref 1)]),
     (1, .arrNode [.date 3, .prim (.pstr "x")])]
    (fun id => if id = 0 then 1 else 0) (.ref 0)
    (by unfold heapClosed; decide) (by unfold rankDec; decide) (by decide)

end FetchClient
